import Mathlib

/-!
Shallow embedding of the hybrid-RAG ingestion/search core
(`agent/agent/tools.py`, `agent/agent/embeddings.py`,
`agent/ingestion/chunker.py`, `agent/ingestion/pipeline.py`)
together with theorems settling the frozen claims about it.

Numbers: Python floats carrying scores, weights and progress values are
modelled as rationals (`ℚ`); every concrete value appearing in the spec
(0.3, 0.5, 0.7, progress percentages) is exactly representable.
Strings: Python `str` is modelled as Lean `String`; the Python string
primitives used by the code (`strip`, `lower`, slicing, `split()`) are
embedded below as structurally recursive functions on the character list,
so that they evaluate inside the kernel.
-/

namespace HybridRag

/-- Python `str.strip()` - remove leading and trailing whitespace. -/
def pyStrip (s : String) : String :=
  String.mk (((s.data.dropWhile Char.isWhitespace).reverse.dropWhile Char.isWhitespace).reverse)

/-- Python `str.lower()` - ASCII lower-casing of every character. -/
def pyLower (s : String) : String :=
  String.mk (s.data.map Char.toLower)

/-- Python `s[:n]` - the first `n` characters of `s`. -/
def pySlice (n : Nat) (s : String) : String :=
  String.mk (s.data.take n)

/-- Accumulator pass behind `pyWords`: splits a character list into
maximal whitespace-free words, dropping the separators. -/
def pyWordsAux : List Char → List Char → List (List Char)
  | [], acc => if acc.isEmpty then [] else [acc.reverse]
  | c :: cs, acc =>
    if c.isWhitespace then
      if acc.isEmpty then pyWordsAux cs [] else acc.reverse :: pyWordsAux cs []
    else pyWordsAux cs (c :: acc)

/-- Python `str.split()` with no argument: the whitespace-separated words
of the string, with no empty words. -/
def pyWords (s : String) : List (List Char) :=
  pyWordsAux s.data []

/-- Python truthiness test for a string after `strip()`: true iff the
stripped string is non-empty. -/
def stripNonEmpty (s : String) : Bool :=
  pyStrip s ≠ ""

/-!  Data model (`agent/agent/models.py`).  `metadata` dictionaries are
modelled as association lists of string pairs; the graph result's
`relationships` / `properties` payloads, which the fusion code only ever
renders into strings, are modelled as their rendered strings. -/

/-- `ChunkResult` (models.py): one vector-search hit. -/
structure ChunkResult where
  chunk_id : String
  document_id : String
  content : String
  score : ℚ
  metadata : List (String × String) := []
  document_title : Option String := none
  document_source : Option String := none
  chunk_index : Option Nat := none
deriving Repr, DecidableEq

/-- `GraphResult` (models.py): one knowledge-graph hit. -/
structure GraphResult where
  entity_id : String
  entity_name : String
  entity_type : String
  relationships : String := ""
  properties : String := ""
  score : Option ℚ := none
deriving Repr, DecidableEq

/-- `DocumentChunk` (models.py): one chunk produced by segmentation. -/
structure DocumentChunk where
  document_id : String
  content : String
  chunk_index : Nat
  start_char : Option Nat := none
  end_char : Option Nat := none
  embedding : Option (List ℚ) := none
deriving Repr, DecidableEq

/-- `ProcessingResult` (models.py): outcome record of one pipeline run. -/
structure ProcessingResult where
  job_id : String
  document_id : String
  chunks_created : Nat
  entities_extracted : Nat
  relationships_created : Nat
  success : Bool
  error_message : Option String := none
deriving Repr, DecidableEq

/-!  Hybrid fusion helpers (`agent/agent/tools.py`). -/

/-- The in-place update tools.py lines 232-234 perform on the caller's
vector results: `result.score = result.score * vector_weight`.  Because
Python mutates each `ChunkResult` object, this map is both the state of
the caller's list after `_combine_search_results` returns and the vector
portion of the combined list. -/
def scaleVectorResult (vector_weight : ℚ) (r : ChunkResult) : ChunkResult :=
  { r with score := r.score * vector_weight }

/-- State of the caller's `vector_results` list after
`_combine_search_results` has run (tools.py lines 232-234 mutate the
shared objects). -/
def vectorResultsAfterCombine (vector_results : List ChunkResult) (vector_weight : ℚ) :
    List ChunkResult :=
  vector_results.map (scaleVectorResult vector_weight)

/-- tools.py lines 237-256: project one `GraphResult` to a pseudo-chunk
`ChunkResult`, score `(graph_result.score or 0.5) * graph_weight`.
Python's `or` is falsy-coalescing: the 0.5 default applies both when the
score is `None` and when it is `0.0`. -/
def graphToChunkResult (graph_weight : ℚ) (g : GraphResult) : ChunkResult :=
  { chunk_id := g.entity_id
    document_id := "knowledge_graph"
    content :=
      "Entity: " ++ g.entity_name ++ " (" ++ g.entity_type ++ ")\n" ++
      "Properties: " ++ g.properties ++ "\n" ++
      "Relationships: " ++ g.relationships
    score :=
      (match g.score with
        | none => (1/2 : ℚ)
        | some s => if s = 0 then 1/2 else s) * graph_weight
    metadata :=
      [("source", "knowledge_graph"), ("entity_type", g.entity_type),
       ("entity_name", g.entity_name), ("relationships", g.relationships),
       ("properties", g.properties)]
    document_title := some ("Knowledge Graph: " ++ g.entity_name)
    document_source := some "knowledge_graph" }

/-- Sort order used by tools.py line 259
(`combined_results.sort(key=lambda x: x.score, reverse=True)`):
descending score.  Python `list.sort` is stable, so the embedding uses
the stable insertion sort with this total order. -/
def scoreGE (a b : ChunkResult) : Prop := b.score ≤ a.score

instance : DecidableRel scoreGE := fun a b => inferInstanceAs (Decidable (b.score ≤ a.score))

/-- `_combine_search_results` (tools.py lines 220-261): scale the vector
results in place, project every graph result to a pseudo-chunk, and sort
the concatenation by descending score (stably). -/
def combineSearchResults (vector_results : List ChunkResult)
    (graph_results : List GraphResult) (vector_weight graph_weight : ℚ) :
    List ChunkResult :=
  List.insertionSort scoreGE
    (vectorResultsAfterCombine vector_results vector_weight ++
      graph_results.map (graphToChunkResult graph_weight))

/-- `_normalize_scores` (tools.py lines 263-281): min-max rescaling of a
result set into [0,1]; when every score is equal, each becomes 1.0. -/
def normalizeScores (results : List ChunkResult) : List ChunkResult :=
  match results with
  | [] => []
  | r :: rs =>
    let scores := (r :: rs).map ChunkResult.score
    let max_score := scores.foldl max r.score
    let min_score := scores.foldl min r.score
    if max_score = min_score then
      (r :: rs).map fun x => { x with score := 1 }
    else
      (r :: rs).map fun x => { x with score := (x.score - min_score) / (max_score - min_score) }

/-- Deduplication key of tools.py line 293:
`result.content[:100].strip().lower()` - slice the first 100 characters,
then strip, then lower-case. -/
def dedupKey (r : ChunkResult) : String :=
  pyLower (pyStrip (pySlice 100 r.content))

/-- Loop of `_deduplicate_results` (tools.py lines 288-297) with its
`seen_content` set carried explicitly. -/
def dedupGo : List ChunkResult → List String → List ChunkResult
  | [], _ => []
  | r :: rs, seen =>
    if dedupKey r ∈ seen then dedupGo rs seen
    else r :: dedupGo rs (dedupKey r :: seen)

/-- `_deduplicate_results` (tools.py lines 283-299): keep the first
result for each deduplication key, in input order. -/
def deduplicateResults (results : List ChunkResult) : List ChunkResult :=
  dedupGo results []

/-!  Segmentation (`agent/ingestion/chunker.py`).

External pieces are taken as parameters of the embedding: `split` stands
for `RecursiveCharacterTextSplitter.split_text` (a third-party library
call) and `preprocess` for `_preprocess_text` (a regex pipeline whose
own `try/except` always returns a string; no claim depends on its
internals, so it is quantified over).  Failures of the LLM boundary
step and of the semantic-chunking body are injected through boolean
oracles, mirroring the `try/except` structure of the source. -/

/-- `ChunkingConfig` (chunker.py lines 21-29).  The defaults of
`chunk_size`, `chunk_overlap` and `max_chunk_size` come from the
environment-dependent global config; `min_chunk_size` defaults to 100. -/
structure ChunkingConfig where
  chunk_size : Nat
  chunk_overlap : Nat
  max_chunk_size : Nat
  use_semantic_chunking : Bool := true
  preserve_structure : Bool := true
  min_chunk_size : Nat := 100
deriving Repr, DecidableEq

/-- Loop of `_post_process_chunks` (chunker.py lines 190-225), with the
enumerate counter `i` and the running `char_offset` carried explicitly:
candidates whose stripped length is below `min_chunk_size` are skipped
(`continue`, which also skips the offset update), oversize candidates
are truncated to `max_chunk_size`, and each kept candidate becomes a
`DocumentChunk` whose `chunk_index` is its position `i` in the candidate
list. -/
def postProcessAux (cfg : ChunkingConfig) (docId : String) :
    List String → Nat → Nat → List DocumentChunk
  | [], _, _ => []
  | chunk_text :: rest, i, char_offset =>
    if (pyStrip chunk_text).length < cfg.min_chunk_size then
      postProcessAux cfg docId rest (i + 1) char_offset
    else
      let t := if chunk_text.length > cfg.max_chunk_size
               then pySlice cfg.max_chunk_size chunk_text else chunk_text
      { document_id := docId
        content := pyStrip t
        chunk_index := i
        start_char := some char_offset
        end_char := some (char_offset + t.length) }
        :: postProcessAux cfg docId rest (i + 1) (char_offset + t.length)

/-- `_post_process_chunks` (chunker.py lines 190-225). -/
def postProcessChunks (cfg : ChunkingConfig) (docId : String) (chunks : List String) :
    List DocumentChunk :=
  postProcessAux cfg docId chunks 0 0

/-- `_optimize_chunk_boundaries` (chunker.py lines 157-188): both its
`try` branch and its `except` branch return the input chunks unchanged
(the LLM suggestion is built but never applied). -/
def optimizeChunkBoundaries (chunks : List String) : List String :=
  chunks

/-- Fixed-size grouping `texts[i:i+n]` for `i = 0, n, 2n, ...` (the
Python batching loops).  Structurally recursive on a fuel argument so
that it evaluates in the kernel; `groupsOf` supplies fuel `l.length`,
which suffices whenever `n ≥ 1`. -/
def groupsOfAux {α : Type} : Nat → Nat → List α → List (List α)
  | _, _, [] => []
  | 0, _, _ :: _ => []
  | fuel + 1, n, a :: rest =>
    (a :: rest.take (n - 1)) :: groupsOfAux fuel n (rest.drop (n - 1))

/-- Successive groups of `n` elements (the last may be shorter). -/
def groupsOf {α : Type} (n : Nat) (l : List α) : List (List α) :=
  groupsOfAux l.length n l

/-- Batch loop of `_semantic_chunk` (chunker.py lines 125-146): the
chunks are processed in batches of 5; a batch whose LLM call fails is
appended unchanged (the `except` extends `current_batch`), a batch whose
LLM call succeeds is appended as `_optimize_chunk_boundaries` returns it
(also unchanged). -/
def semanticBatchLoop (batchFail : Nat → Bool) : List (List String) → Nat → List String
  | [], _ => []
  | batch :: rest, k =>
    (if batchFail k then batch else optimizeChunkBoundaries batch) ++
      semanticBatchLoop batchFail rest (k + 1)

/-- `_semantic_chunk` (chunker.py lines 114-151): basic split first; at
most 20 basic chunks are returned as-is; otherwise the batch loop runs.
`outer_error` injects a failure of the method body, whose `except`
returns the basic split of the text. -/
def semanticChunk (split : String → List String) (outer_error : Bool)
    (batchFail : Nat → Bool) (text : String) : List String :=
  if outer_error then split text
  else
    let basic_chunks := split text
    if basic_chunks.length ≤ 20 then basic_chunks
    else semanticBatchLoop batchFail (groupsOf 5 basic_chunks) 0

/-- `chunk_document` (chunker.py lines 57-86): empty extracted text
yields no chunks; otherwise the preprocessed text is chunked
(semantically or basically per the config) and post-processed.  The
method's own `except` returns `[]`; it is not reachable in the model
because every stage below it is total. -/
def chunkDocument (split : String → List String) (preprocess : String → String)
    (cfg : ChunkingConfig) (docId : String) (outer_error : Bool)
    (batchFail : Nat → Bool) (text_content : String) : List DocumentChunk :=
  if pyStrip text_content = "" then []
  else
    let preprocessed_text := preprocess text_content
    let chunks :=
      if cfg.use_semantic_chunking then
        semanticChunk split outer_error batchFail preprocessed_text
      else split preprocessed_text
    postProcessChunks cfg docId chunks

/-!  Embedding generation (`agent/agent/embeddings.py`).

The external provider call is modelled by a per-text vector function
`embed` (the provider returns one vector per submitted text, in order)
and a per-batch failure oracle `providerFail` indexed by the 1-based
batch number. -/

/-- `_clean_text` (embeddings.py lines 156-170): collapse whitespace by
splitting into words and re-joining with single spaces, then truncate to
8000 characters. -/
def cleanText (text : String) : String :=
  if text = "" then ""
  else
    let cleaned := String.mk (List.intercalate [' '] (pyWords text))
    if cleaned.length > 8000 then pySlice 8000 cleaned else cleaned

/-- The zero vector `[0.0] * dimensions` used as the empty-text and
failed-batch sentinel. -/
def zeroVector (dims : Nat) : List ℚ :=
  List.replicate dims (0 : ℚ)

/-- Alignment loop of embeddings.py lines 126-132: walk the cleaned
batch, consuming one provider vector per non-empty text and emitting a
zero vector for each empty one.  The `[]` provider case is unreachable:
the provider returns exactly one vector per non-empty text. -/
def alignEmbeddings (dims : Nat) : List (List ℚ) → List String → List (List ℚ)
  | _, [] => []
  | es, cleaned_text :: rest =>
    if stripNonEmpty cleaned_text then
      match es with
      | e :: es2 => e :: alignEmbeddings dims es2 rest
      | [] => []
    else zeroVector dims :: alignEmbeddings dims es rest

/-- Body of one iteration of the batch loop of
`generate_embeddings_batch` (embeddings.py lines 99-147): clean the
batch, give every text a zero vector when all clean to empty, give the
whole batch zero vectors when the provider call fails, and otherwise
align the provider's vectors with the batch. -/
def processBatch (dims : Nat) (embed : String → List ℚ) (fail : Bool)
    (batch : List String) : List (List ℚ) :=
  let cleaned_batch := batch.map cleanText
  let non_empty_batch := cleaned_batch.filter stripNonEmpty
  if non_empty_batch.isEmpty then List.replicate batch.length (zeroVector dims)
  else if fail then List.replicate batch.length (zeroVector dims)
  else alignEmbeddings dims (non_empty_batch.map embed) cleaned_batch

/-- The batch loop of `generate_embeddings_batch`, with the 1-based
`batch_num` carried explicitly. -/
def genBatchesLoop (dims : Nat) (embed : String → List ℚ)
    (providerFail : Nat → Bool) : List (List String) → Nat → List (List ℚ)
  | [], _ => []
  | batch :: rest, batch_num =>
    processBatch dims embed (providerFail batch_num) batch ++
      genBatchesLoop dims embed providerFail rest (batch_num + 1)

/-- `generate_embeddings_batch` (embeddings.py lines 89-154). -/
def generateEmbeddingsBatch (dims batch_size : Nat) (embed : String → List ℚ)
    (providerFail : Nat → Bool) (texts : List String) : List (List ℚ) :=
  genBatchesLoop dims embed providerFail (groupsOf batch_size texts) 1

/-- `total_batches = (len(texts) + batch_size - 1) // batch_size`
(embeddings.py line 97). -/
def totalBatches (batch_size : Nat) (texts : List String) : Nat :=
  (texts.length + batch_size - 1) / batch_size

/-- The `(batch_num, total_batches)` pairs delivered to the progress
callback of `generate_embeddings_batch` (embeddings.py line 138): one
call per batch that was neither all-empty nor failed, in order. -/
def embedCallsLoop (providerFail : Nat → Bool) (total_batches : Nat) :
    List (List String) → Nat → List (Nat × Nat)
  | [], _ => []
  | batch :: rest, batch_num =>
    if ((batch.map cleanText).filter stripNonEmpty).isEmpty then
      embedCallsLoop providerFail total_batches rest (batch_num + 1)
    else if providerFail batch_num then
      embedCallsLoop providerFail total_batches rest (batch_num + 1)
    else
      (batch_num, total_batches) :: embedCallsLoop providerFail total_batches rest (batch_num + 1)

/-- Progress-callback argument sequence of one
`generate_embeddings_batch` run. -/
def embeddingProgressCalls (batch_size : Nat) (providerFail : Nat → Bool)
    (texts : List String) : List (Nat × Nat) :=
  embedCallsLoop providerFail (totalBatches batch_size texts) (groupsOf batch_size texts) 1

/-!  Ingestion pipeline (`agent/ingestion/pipeline.py`).

`process_document` is modelled as a pure function from a stage
environment to the `ProcessingResult` it returns paired with the list of
progress values (the second argument of each `progress_callback`
invocation, in order).  Stage failures - a raised exception inside
`pdf_processor.process_pdf`, `generate_embeddings_batch` (whose outer
`except` re-raises as `EmbeddingError`), `vector_store.add_documents` or
`knowledge_graph.add_episode` - are modelled as `Except.error` values of
the stage; the chunker is total (its own `except` returns `[]`).
`graph_progress` (pipeline.py lines 130-133) is defined in the source
but never invoked, so it contributes no trace entries. -/

/-- Stage outcomes of one `process_document` run. -/
structure PipelineEnv where
  extract : Except String String
  chunker : String → List DocumentChunk
  dims : Nat
  batch_size : Nat
  embed : String → List ℚ
  providerFail : Nat → Bool
  embed_error : Option String := none
  vector_add : Except String Bool
  add_episode : Except String String

/-- The `ProcessingResult` built by the `except` handler of
`process_document` (pipeline.py lines 193-225). -/
def failureResult (job_id document_id msg : String) : ProcessingResult :=
  { job_id := job_id
    document_id := document_id
    chunks_created := 0
    entities_extracted := 0
    relationships_created := 0
    success := false
    error_message := some msg }

/-- `process_document` (pipeline.py lines 41-225): the result returned
to the caller and the progress values delivered to the callback.  The
fixed checkpoints are those of the source: 0, 10, 20, 25, 40, 45,
the embedding interpolation `45 + (current/total)*15`, 60, 65, 70, 75,
90, 95, 100; every failure path ends with a final `100` from the
handler. -/
def processDocument (env : PipelineEnv) (job_id document_id : String) :
    ProcessingResult × List ℚ :=
  let t0 : List ℚ := [0, 10]
  match env.extract with
  | Except.error e => (failureResult job_id "unknown" e, t0 ++ [100])
  | Except.ok text_content =>
    let t1 := t0 ++ [20, 25]
    let chunks := env.chunker text_content
    if chunks.isEmpty then
      (failureResult job_id document_id "No chunks created from document", t1 ++ [100])
    else
      let t2 := t1 ++ [40, 45]
      match env.embed_error with
      | some e => (failureResult job_id document_id e, t2 ++ [100])
      | none =>
        let chunk_texts := chunks.map DocumentChunk.content
        let calls := embeddingProgressCalls env.batch_size env.providerFail chunk_texts
        let embed_vals := calls.map fun p => 45 + ((p.1 : ℚ) / (p.2 : ℚ)) * 15
        let t3 := t2 ++ embed_vals ++ [60, 65]
        match env.vector_add with
        | Except.error e => (failureResult job_id document_id e, t3 ++ [100])
        | Except.ok _ =>
          let t4 := t3 ++ [70, 75]
          match env.add_episode with
          | Except.error e => (failureResult job_id document_id e, t4 ++ [100])
          | Except.ok _ =>
            ({ job_id := job_id
               document_id := document_id
               chunks_created := chunks.length
               entities_extracted := 1
               relationships_created := 0
               success := true }, t4 ++ [90, 95, 100])

/-!  Helper lemmas about folded maxima and minima (used for
`_normalize_scores`, which takes `max(...)` / `min(...)` of the score
list). -/

/-- A seed is below the folded maximum. -/
theorem le_foldl_max (a : ℚ) (l : List ℚ) : a ≤ l.foldl max a := by
  induction l generalizing a with
  | nil => simp
  | cons b t ih => simpa using le_trans (le_max_left a b) (ih (max a b))

/-- Every member is below the folded maximum. -/
theorem mem_le_foldl_max (l : List ℚ) (a x : ℚ) (hx : x ∈ l) : x ≤ l.foldl max a := by
  induction l generalizing a with
  | nil => cases hx
  | cons b t ih =>
    rcases List.mem_cons.mp hx with rfl | h
    · exact le_trans (le_max_right a x) (le_foldl_max _ _)
    · exact ih _ h

/-- The folded maximum of a bounded list is bounded. -/
theorem foldl_max_le (l : List ℚ) (a c : ℚ) (ha : a ≤ c) (h : ∀ x ∈ l, x ≤ c) :
    l.foldl max a ≤ c := by
  induction l generalizing a with
  | nil => simpa using ha
  | cons b t ih =>
    simpa using ih (max a b) (max_le ha (h b (List.mem_cons_self b t)))
      fun x hx => h x (List.mem_cons_of_mem _ hx)

/-- The folded minimum is below the seed. -/
theorem foldl_min_le (a : ℚ) (l : List ℚ) : l.foldl min a ≤ a := by
  induction l generalizing a with
  | nil => simp
  | cons b t ih => simpa using le_trans (ih (min a b)) (min_le_left a b)

/-- The folded minimum is below every member. -/
theorem foldl_min_le_mem (l : List ℚ) (a x : ℚ) (hx : x ∈ l) : l.foldl min a ≤ x := by
  induction l generalizing a with
  | nil => cases hx
  | cons b t ih =>
    rcases List.mem_cons.mp hx with rfl | h
    · exact le_trans (foldl_min_le (min a x) t) (min_le_right a x)
    · exact ih _ h

/-- The folded minimum of a list bounded below is bounded below. -/
theorem le_foldl_min (l : List ℚ) (a c : ℚ) (ha : c ≤ a) (h : ∀ x ∈ l, c ≤ x) :
    c ≤ l.foldl min a := by
  induction l generalizing a with
  | nil => simpa using ha
  | cons b t ih =>
    simpa using ih (min a b) (le_min ha (h b (List.mem_cons_self b t)))
      fun x hx => h x (List.mem_cons_of_mem _ hx)

/-- Setting every score to 1 and then reading the scores yields all
ones. -/
theorem map_score_map_setOne (l : List ChunkResult) :
    (l.map fun x => ({ x with score := 1 } : ChunkResult)).map ChunkResult.score
      = List.replicate l.length 1 := by
  induction l with
  | nil => simp
  | cons a t ih => simp [ih, List.replicate_succ]

/-- A `ChunkResult` carrying only a score, for concrete instances. -/
def mkResult (s : ℚ) : ChunkResult :=
  { chunk_id := "", document_id := "", content := "", score := s }

/-- C8: `_normalize_scores` rescales every result set min-max into
[0,1]; when all scores are equal every score becomes exactly 1; on
scores [2, 4, 6] it yields [0, 1/2, 1] and on [5, 5, 5] it yields
[1, 1, 1]. -/
theorem normalize_scores_minmax (results : List ChunkResult) :
    (∀ r ∈ normalizeScores results, 0 ≤ r.score ∧ r.score ≤ 1) ∧
    (∀ c : ℚ, (∀ r ∈ results, r.score = c) →
      (normalizeScores results).map ChunkResult.score = List.replicate results.length 1) ∧
    (normalizeScores [mkResult 2, mkResult 4, mkResult 6]).map ChunkResult.score
      = [0, 1/2, 1] ∧
    (normalizeScores [mkResult 5, mkResult 5, mkResult 5]).map ChunkResult.score
      = [1, 1, 1] := by
  refine ⟨?_, ?_, ?_, ?_⟩
  · intro r hr
    cases results with
    | nil => simp [normalizeScores] at hr
    | cons r0 rs =>
      simp only [normalizeScores] at hr
      split at hr
      · obtain ⟨x, _, rfl⟩ := List.mem_map.mp hr
        norm_num
      · next hne =>
        obtain ⟨x, hx, rfl⟩ := List.mem_map.mp hr
        have hxS : x.score ∈ (r0 :: rs).map ChunkResult.score := List.mem_map_of_mem _ hx
        have h0S : r0.score ∈ (r0 :: rs).map ChunkResult.score :=
          List.mem_map_of_mem _ (List.mem_cons_self r0 rs)
        have h1 : ((r0 :: rs).map ChunkResult.score).foldl min r0.score ≤ x.score :=
          foldl_min_le_mem _ _ _ hxS
        have h2 : x.score ≤ ((r0 :: rs).map ChunkResult.score).foldl max r0.score :=
          mem_le_foldl_max _ _ _ hxS
        have hle : ((r0 :: rs).map ChunkResult.score).foldl min r0.score ≤
            ((r0 :: rs).map ChunkResult.score).foldl max r0.score :=
          le_trans (foldl_min_le_mem _ _ _ h0S) (mem_le_foldl_max _ _ _ h0S)
        have hlt : ((r0 :: rs).map ChunkResult.score).foldl min r0.score <
            ((r0 :: rs).map ChunkResult.score).foldl max r0.score :=
          lt_of_le_of_ne hle (Ne.symm hne)
        constructor
        · exact div_nonneg (sub_nonneg.2 h1) (sub_nonneg.2 hle)
        · exact (div_le_one (sub_pos.2 hlt)).2 (sub_le_sub_right h2 _)
  · intro c hc
    cases results with
    | nil => simp [normalizeScores]
    | cons r0 rs =>
      have hseed : r0.score = c := hc r0 (List.mem_cons_self r0 rs)
      have hall : ∀ x ∈ (r0 :: rs).map ChunkResult.score, x = c := by
        intro x hx
        obtain ⟨y, hy, rfl⟩ := List.mem_map.mp hx
        exact hc y hy
      have hmax : ((r0 :: rs).map ChunkResult.score).foldl max r0.score = c :=
        le_antisymm
          (foldl_max_le _ _ _ hseed.le fun x hx => (hall x hx).le)
          (hseed ▸ le_foldl_max _ _)
      have hmin : ((r0 :: rs).map ChunkResult.score).foldl min r0.score = c :=
        le_antisymm
          (hseed ▸ foldl_min_le _ _)
          (le_foldl_min _ _ _ hseed.ge fun x hx => (hall x hx).ge)
      simp only [normalizeScores]
      rw [hmax, hmin, if_pos rfl]
      simpa using map_score_map_setOne (r0 :: rs)
  · simp [normalizeScores, mkResult, List.foldl, max_def, min_def]
    norm_num
  · simp [normalizeScores, mkResult, List.foldl, max_def, min_def]

/-- Closed instance of `normalize_scores_minmax`, discharging its
membership and all-equal hypotheses at concrete inputs. -/
theorem normalize_scores_minmax_witness :
    (0 ≤ (mkResult 0).score ∧ (mkResult 0).score ≤ 1) ∧
    (normalizeScores [mkResult 5]).map ChunkResult.score = List.replicate 1 1 :=
  ⟨(normalize_scores_minmax [mkResult 2, mkResult 4, mkResult 6]).1 (mkResult 0)
      (by simp [normalizeScores, mkResult, List.foldl, max_def, min_def]; norm_num),
    by
      have h := (normalize_scores_minmax [mkResult 5]).2.1 5
        (by intro r hr; simp [mkResult] at hr; simp [hr, mkResult])
      simpa using h⟩

/-!  Lemmas about the deduplication loop. -/

/-- The deduplication loop returns a subsequence of its input. -/
theorem dedupGo_sublist (l : List ChunkResult) :
    ∀ seen, (dedupGo l seen).Sublist l := by
  induction l with
  | nil => intro seen; simp [dedupGo]
  | cons r rs ih =>
    intro seen
    simp only [dedupGo]
    split
    · exact (ih seen).cons r
    · exact (ih (dedupKey r :: seen)).cons₂ r

/-- No element kept by the deduplication loop has a key already seen. -/
theorem dedupGo_not_seen (l : List ChunkResult) :
    ∀ seen r, r ∈ dedupGo l seen → dedupKey r ∉ seen := by
  induction l with
  | nil => intro seen r hr; simp [dedupGo] at hr
  | cons r0 rs ih =>
    intro seen r hr
    simp only [dedupGo] at hr
    split at hr
    · exact ih seen r hr
    · next h0 =>
      rcases List.mem_cons.mp hr with rfl | h
      · exact h0
      · exact fun hc => ih _ r h (List.mem_cons_of_mem _ hc)

/-- The keys of the deduplicated list are pairwise distinct. -/
theorem dedupGo_pairwise (l : List ChunkResult) :
    ∀ seen, (dedupGo l seen).Pairwise fun a b => dedupKey a ≠ dedupKey b := by
  induction l with
  | nil => intro seen; simp [dedupGo]
  | cons r0 rs ih =>
    intro seen
    simp only [dedupGo]
    split
    · exact ih seen
    · refine List.Pairwise.cons ?_ (ih (dedupKey r0 :: seen))
      intro b hb
      have := dedupGo_not_seen rs (dedupKey r0 :: seen) b hb
      exact fun he => this (he ▸ List.mem_cons_self _ _)

/-- Every input key is represented in the deduplicated list. -/
theorem dedupGo_covers (l : List ChunkResult) :
    ∀ seen r, r ∈ l → dedupKey r ∉ seen →
      ∃ s ∈ dedupGo l seen, dedupKey s = dedupKey r := by
  induction l with
  | nil => intro seen r hr; cases hr
  | cons r0 rs ih =>
    intro seen r hr hks
    simp only [dedupGo]
    split
    · next h0 =>
      rcases List.mem_cons.mp hr with rfl | h
      · exact absurd h0 hks
      · exact ih seen r h hks
    · next h0 =>
      rcases List.mem_cons.mp hr with rfl | h
      · exact ⟨r, List.mem_cons_self _ _, rfl⟩
      · by_cases hk : dedupKey r = dedupKey r0
        · exact ⟨r0, List.mem_cons_self _ _, hk.symm⟩
        · obtain ⟨s, hs, he⟩ := ih (dedupKey r0 :: seen) r h
            (by simp [hks, hk])
          exact ⟨s, List.mem_cons_of_mem _ hs, he⟩

/-- Each element the deduplication loop keeps is the first input element
carrying its key. -/
theorem dedupGo_find (l : List ChunkResult) :
    ∀ seen r, r ∈ dedupGo l seen →
      l.find? (fun x => dedupKey x == dedupKey r) = some r := by
  induction l with
  | nil => intro seen r hr; simp [dedupGo] at hr
  | cons r0 rs ih =>
    intro seen r hr
    simp only [dedupGo] at hr
    split at hr
    · next h0 =>
      have hne : dedupKey r ≠ dedupKey r0 := by
        intro he
        exact dedupGo_not_seen rs seen r hr (he ▸ h0)
      rw [List.find?_cons_of_neg _ (by simpa using fun he => hne he.symm)]
      exact ih seen r hr
    · rcases List.mem_cons.mp hr with rfl | h
      · exact List.find?_cons_of_pos _ (by simp)
      · have hne : dedupKey r ≠ dedupKey r0 := by
          intro he
          exact dedupGo_not_seen rs (dedupKey r0 :: seen) r h
            (by simp [he])
        rw [List.find?_cons_of_neg _ (by simpa using fun he => hne he.symm)]
        exact ih (dedupKey r0 :: seen) r h

/-- C9 counterexample: the deduplication key of the code is
`content[:100].strip().lower()` - slice first, then trim - not the first
100 characters of the trimmed content.  These two results agree on the
first 100 characters of their trimmed, lower-cased content, yet
`_deduplicate_results` keeps both, so the claim's key description does
not hold of the code. -/
theorem deduplicate_results_spec_key_counterexample :
    pySlice 100 (pyLower (pyStrip
        ({ mkResult 0 with content := String.mk (List.replicate 100 'x' ++ ['a']) }
          : ChunkResult).content)) =
      pySlice 100 (pyLower (pyStrip
        ({ mkResult 0 with content := String.mk (' ' :: List.replicate 100 'x') }
          : ChunkResult).content)) ∧
    deduplicateResults
        [{ mkResult 0 with content := String.mk (List.replicate 100 'x' ++ ['a']) },
         { mkResult 0 with content := String.mk (' ' :: List.replicate 100 'x') }] =
      [{ mkResult 0 with content := String.mk (List.replicate 100 'x' ++ ['a']) },
       { mkResult 0 with content := String.mk (' ' :: List.replicate 100 'x') }] := by
  constructor
  · decide
  · decide

/-- C9 (amended): `_deduplicate_results` keeps, in original order, the
first result for each equality key and drops later results with the
same key, where the key is the trimmed, lower-cased first 100 characters
of the content (slice first, then trim and lower-case). -/
theorem deduplicate_results_first_per_key (results : List ChunkResult) :
    (deduplicateResults results).Sublist results ∧
    ((deduplicateResults results).Pairwise fun a b => dedupKey a ≠ dedupKey b) ∧
    (∀ r ∈ results, ∃ s ∈ deduplicateResults results, dedupKey s = dedupKey r) ∧
    (∀ s ∈ deduplicateResults results,
      results.find? (fun x => dedupKey x == dedupKey s) = some s) := by
  refine ⟨dedupGo_sublist results [], dedupGo_pairwise results [], ?_, ?_⟩
  · intro r hr
    exact dedupGo_covers results [] r hr (by simp)
  · intro s hs
    exact dedupGo_find results [] s hs

/-- Closed instance of `deduplicate_results_first_per_key` on a pair of
results whose keys coincide, discharging the membership hypothesis. -/
theorem deduplicate_results_first_per_key_witness :
    [({ mkResult 0 with content := "A" } : ChunkResult),
        { mkResult 0 with content := " a" }].find?
        (fun x => dedupKey x == dedupKey ({ mkResult 0 with content := "A" } : ChunkResult))
      = some { mkResult 0 with content := "A" } :=
  (deduplicate_results_first_per_key
      [{ mkResult 0 with content := "A" }, { mkResult 0 with content := " a" }]).2.2.2
      { mkResult 0 with content := "A" } (by decide)

/-!  Hybrid fusion claims. -/

instance : IsTotal ChunkResult scoreGE :=
  ⟨fun a b => le_total b.score a.score⟩

instance : IsTrans ChunkResult scoreGE :=
  ⟨fun _ _ _ hab hbc => le_trans hbc hab⟩

/-- A `GraphResult` carrying only a score, for concrete instances. -/
def mkGraph (s : Option ℚ) : GraphResult :=
  { entity_id := "", entity_name := "", entity_type := "", score := s }

/-- C6 counterexample: the claim's score formula - the raw score, with
0.5 substituted only when the result carries no score - fails on the
code at a graph result whose raw score is 0.0: Python's falsy `or`
(tools.py line 245) replaces 0.0 by the 0.5 default as well, so with
`graph_weight = 0.3` the code produces 0.15 where the claim predicts
0. -/
theorem combine_search_results_score_zero_counterexample :
    (graphToChunkResult (3/10) (mkGraph (some 0))).score = 3/20 ∧
    ((Option.some (0 : ℚ)).getD (1/2)) * (3/10) = 0 ∧
    (3/20 : ℚ) ≠ 0 := by
  refine ⟨?_, by norm_num, by norm_num⟩
  simp only [graphToChunkResult, mkGraph]
  norm_num

/-- C6 (amended): hybrid fusion scales every vector result's score by
`vector_weight`; every graph result is projected to a pseudo-chunk whose
score is its raw score times `graph_weight`, except that a missing score
and a raw score of 0.0 (both falsy under Python's `or`) are replaced by
0.5 before weighting; the concatenation is sorted by descending score;
and on a raw-1.0 vector result and a raw-1.0 graph result with weights
0.7/0.3 the fused scores are 0.7 then 0.3 in that order. -/
theorem combine_search_results_weighted (vector_results : List ChunkResult)
    (graph_results : List GraphResult) (vector_weight graph_weight : ℚ) :
    (combineSearchResults vector_results graph_results vector_weight graph_weight).Perm
      ((vector_results.map fun r => { r with score := r.score * vector_weight }) ++
        graph_results.map (graphToChunkResult graph_weight)) ∧
    (∀ g : GraphResult, g.score = none →
      (graphToChunkResult graph_weight g).score = 1/2 * graph_weight) ∧
    (∀ g : GraphResult, g.score = some 0 →
      (graphToChunkResult graph_weight g).score = 1/2 * graph_weight) ∧
    (∀ g : GraphResult, ∀ s : ℚ, g.score = some s → s ≠ 0 →
      (graphToChunkResult graph_weight g).score = s * graph_weight) ∧
    ((combineSearchResults vector_results graph_results vector_weight graph_weight).Pairwise
      fun a b => b.score ≤ a.score) ∧
    (combineSearchResults [mkResult 1] [mkGraph (some 1)] (7/10) (3/10)).map ChunkResult.score
      = [7/10, 3/10] := by
  refine ⟨?_, ?_, ?_, ?_, ?_, ?_⟩
  · exact List.perm_insertionSort scoreGE _
  · intro g hg
    simp [graphToChunkResult, hg]
  · intro g hg
    simp [graphToChunkResult, hg]
  · intro g s hg hs
    simp [graphToChunkResult, hg, hs]
  · exact List.sorted_insertionSort scoreGE _
  · simp only [combineSearchResults, vectorResultsAfterCombine, scaleVectorResult,
      graphToChunkResult, mkResult, mkGraph, List.map_cons, List.map_nil,
      List.insertionSort, List.orderedInsert, List.cons_append, List.nil_append]
    norm_num [scoreGE]

/-- Closed instance of `combine_search_results_weighted`, discharging
the score-shape hypotheses at a missing, a zero and a non-zero raw
score. -/
theorem combine_search_results_weighted_witness :
    (graphToChunkResult (3/10) (mkGraph none)).score = 1/2 * (3/10) ∧
    (graphToChunkResult (3/10) (mkGraph (some 0))).score = 1/2 * (3/10) ∧
    (graphToChunkResult (3/10) (mkGraph (some 1))).score = 1 * (3/10) :=
  ⟨(combine_search_results_weighted [] [] (7/10) (3/10)).2.1 (mkGraph none) rfl,
    (combine_search_results_weighted [] [] (7/10) (3/10)).2.2.1 (mkGraph (some 0)) rfl,
    (combine_search_results_weighted [] [] (7/10) (3/10)).2.2.2.1 (mkGraph (some 1)) 1
      rfl (by norm_num)⟩

/-- C10: `_combine_search_results` overwrites each vector result's
`score` in place with the weighted value (tools.py line 233), so after
the call the caller's objects carry `raw * vector_weight`, the fused
output contains exactly those mutated objects, and fusing the same
objects a second time scales their scores by `vector_weight` again. -/
theorem combine_search_results_mutates_input (vector_results : List ChunkResult)
    (graph_results : List GraphResult) (vector_weight graph_weight : ℚ) :
    ((vectorResultsAfterCombine vector_results vector_weight).map ChunkResult.score
      = vector_results.map fun r => r.score * vector_weight) ∧
    (combineSearchResults vector_results graph_results vector_weight graph_weight).Perm
      (vectorResultsAfterCombine vector_results vector_weight ++
        graph_results.map (graphToChunkResult graph_weight)) ∧
    ((vectorResultsAfterCombine (vectorResultsAfterCombine vector_results vector_weight)
        vector_weight).map ChunkResult.score
      = vector_results.map fun r => r.score * vector_weight * vector_weight) := by
  refine ⟨?_, List.perm_insertionSort scoreGE _, ?_⟩
  · simp [vectorResultsAfterCombine, scaleVectorResult, List.map_map, Function.comp]
  · simp [vectorResultsAfterCombine, scaleVectorResult, List.map_map, Function.comp]

/-!  Segmentation index claims. -/

/-- Every chunk produced by the post-processing loop carries an index in
`[i, i + number of remaining candidates)`. -/
theorem postProcessAux_index_bounds (cfg : ChunkingConfig) (docId : String) :
    ∀ (chunks : List String) (i off : Nat) (c : DocumentChunk),
      c ∈ postProcessAux cfg docId chunks i off →
      i ≤ c.chunk_index ∧ c.chunk_index < i + chunks.length := by
  intro chunks
  induction chunks with
  | nil => intro i off c hc; simp [postProcessAux] at hc
  | cons t rest ih =>
    intro i off c hc
    simp only [postProcessAux] at hc
    split at hc
    · obtain ⟨h1, h2⟩ := ih (i + 1) off c hc
      refine ⟨le_trans (Nat.le_succ i) h1, ?_⟩
      simp only [List.length_cons]
      omega
    · rcases List.mem_cons.mp hc with rfl | h
      · simp
    -- kept head: index is exactly i
      · obtain ⟨h1, h2⟩ := ih (i + 1) _ c h
        refine ⟨le_trans (Nat.le_succ i) h1, ?_⟩
        simp only [List.length_cons]
        omega

/-- The chunk indices produced by the post-processing loop are strictly
increasing. -/
theorem postProcessAux_pairwise (cfg : ChunkingConfig) (docId : String) :
    ∀ (chunks : List String) (i off : Nat),
      (postProcessAux cfg docId chunks i off).Pairwise
        fun a b => a.chunk_index < b.chunk_index := by
  intro chunks
  induction chunks with
  | nil => intro i off; simp [postProcessAux]
  | cons t rest ih =>
    intro i off
    simp only [postProcessAux]
    split
    · exact ih (i + 1) off
    · refine List.Pairwise.cons ?_ (ih (i + 1) _)
      intro b hb
      have := (postProcessAux_index_bounds cfg docId rest (i + 1) _ b hb).1
      simpa using Nat.lt_of_lt_of_le (Nat.lt_succ_self i) this

/-- When no candidate is discarded, the produced indices are exactly the
candidate positions `i, i+1, ...`. -/
theorem postProcessAux_no_skip (cfg : ChunkingConfig) (docId : String) :
    ∀ (chunks : List String) (i off : Nat),
      (∀ t ∈ chunks, cfg.min_chunk_size ≤ (pyStrip t).length) →
      (postProcessAux cfg docId chunks i off).map DocumentChunk.chunk_index
        = List.range' i chunks.length := by
  intro chunks
  induction chunks with
  | nil => intro i off _; simp [postProcessAux]
  | cons t rest ih =>
    intro i off hall
    have hkeep : ¬ (pyStrip t).length < cfg.min_chunk_size :=
      not_lt.2 (hall t (List.mem_cons_self t rest))
    simp only [postProcessAux, if_neg hkeep, List.map_cons, List.length_cons]
    rw [ih (i + 1) _ fun x hx => hall x (List.mem_cons_of_mem _ hx)]
    rw [List.range'_succ]

/-- C1 counterexample: with the default `min_chunk_size = 100`, a
candidate list whose middle element is shorter than 100 characters
produces two chunks with indices `[0, 2]` - strictly increasing but not
the contiguous `0..n-1` the claim states. -/
theorem post_process_chunks_gap_counterexample :
    ((postProcessChunks
        { chunk_size := 1000, chunk_overlap := 200, max_chunk_size := 2000 } "doc"
        [String.mk (List.replicate 100 'a'), "tiny",
          String.mk (List.replicate 100 'b')]).map DocumentChunk.chunk_index
      = [0, 2]) ∧
    ((postProcessChunks
        { chunk_size := 1000, chunk_overlap := 200, max_chunk_size := 2000 } "doc"
        [String.mk (List.replicate 100 'a'), "tiny",
          String.mk (List.replicate 100 'b')]).map DocumentChunk.chunk_index
      ≠ List.range (postProcessChunks
        { chunk_size := 1000, chunk_overlap := 200, max_chunk_size := 2000 } "doc"
        [String.mk (List.replicate 100 'a'), "tiny",
          String.mk (List.replicate 100 'b')]).length) := by
  constructor
  · decide
  · decide

/-- C1 (amended): the chunk indices of one document's chunk sequence are
strictly increasing positions into the candidate list; they are the
contiguous `0..n-1` when every candidate survives post-processing, but
discarding a candidate shorter than `min_chunk_size` leaves a gap at its
position. -/
theorem post_process_chunks_indices (cfg : ChunkingConfig) (docId : String)
    (chunks : List String) :
    (((postProcessChunks cfg docId chunks).map DocumentChunk.chunk_index).Pairwise (· < ·)) ∧
    (∀ c ∈ postProcessChunks cfg docId chunks, c.chunk_index < chunks.length) ∧
    ((∀ t ∈ chunks, cfg.min_chunk_size ≤ (pyStrip t).length) →
      (postProcessChunks cfg docId chunks).map DocumentChunk.chunk_index
        = List.range chunks.length) := by
  refine ⟨?_, ?_, ?_⟩
  · exact (List.pairwise_map).2 (postProcessAux_pairwise cfg docId chunks 0 0)
  · intro c hc
    simpa using (postProcessAux_index_bounds cfg docId chunks 0 0 c hc).2
  · intro hall
    rw [postProcessChunks, postProcessAux_no_skip cfg docId chunks 0 0 hall,
      List.range_eq_range']

/-- Closed instance of `post_process_chunks_indices`, discharging the
membership and no-discard hypotheses on a concrete candidate list. -/
theorem post_process_chunks_indices_witness :
    (postProcessChunks
        { chunk_size := 10, chunk_overlap := 0, max_chunk_size := 20, min_chunk_size := 1 }
        "doc" ["ab", "cd"]).map DocumentChunk.chunk_index = List.range 2 :=
  (post_process_chunks_indices
      { chunk_size := 10, chunk_overlap := 0, max_chunk_size := 20, min_chunk_size := 1 }
      "doc" ["ab", "cd"]).2.2 (by decide)

/-!  Batching lemmas. -/

/-- Flattening the fixed-size groups recovers the input. -/
theorem groupsOfAux_flatten {α : Type} (n : Nat) :
    ∀ (fuel : Nat) (l : List α), l.length ≤ fuel →
      (groupsOfAux fuel n l).flatten = l := by
  intro fuel
  induction fuel with
  | zero =>
    intro l h
    cases l with
    | nil => simp [groupsOfAux]
    | cons a rest => simp at h
  | succ f ih =>
    intro l h
    cases l with
    | nil => simp [groupsOfAux]
    | cons a rest =>
      have hr : rest.length ≤ f := by simpa using h
      simp only [groupsOfAux, List.flatten_cons]
      rw [ih (rest.drop (n - 1)) (by simp only [List.length_drop]; omega)]
      simp [List.take_append_drop]

/-- `groupsOf` partitions the list: flattening recovers the input. -/
theorem groupsOf_flatten {α : Type} (n : Nat) (l : List α) :
    (groupsOf n l).flatten = l :=
  groupsOfAux_flatten n l.length l le_rfl

/-- The number of fixed-size groups is the rounded-up quotient. -/
theorem groupsOfAux_length {α : Type} (m : Nat) :
    ∀ (fuel : Nat) (l : List α), l.length ≤ fuel →
      (groupsOfAux fuel (m + 1) l).length = (l.length + m) / (m + 1) := by
  intro fuel
  induction fuel with
  | zero =>
    intro l h
    cases l with
    | nil =>
      simp only [groupsOfAux, List.length_nil, List.length, Nat.zero_add]
      exact (Nat.div_eq_of_lt (Nat.lt_succ_self m)).symm
    | cons a rest => simp at h
  | succ f ih =>
    intro l h
    cases l with
    | nil =>
      simp only [groupsOfAux, List.length_nil, List.length, Nat.zero_add]
      exact (Nat.div_eq_of_lt (Nat.lt_succ_self m)).symm
    | cons a rest =>
      have hr : rest.length ≤ f := by simpa using h
      simp only [groupsOfAux, List.length_cons]
      have hm : m + 1 - 1 = m := by omega
      rw [hm, ih (rest.drop m) (by simp only [List.length_drop]; omega)]
      simp only [List.length_drop]
      rcases Nat.le_total rest.length m with hc | hc
      · have h1 : rest.length - m = 0 := by omega
        have h2 : (rest.length + 1 + m) / (m + 1) = 1 := by
          apply Nat.div_eq_of_lt_le <;> omega
        rw [h1, h2, Nat.zero_add, Nat.div_eq_of_lt (Nat.lt_succ_self m)]
      · have h1 : rest.length - m + m = rest.length := by omega
        have h2 : rest.length + 1 + m = rest.length + (m + 1) := by omega
        rw [h1, h2, Nat.add_div_right _ (Nat.succ_pos m)]

/-- The number of batches equals `total_batches` from embeddings.py. -/
theorem groupsOf_length {α : Type} (batch_size : Nat) (hbs : 1 ≤ batch_size)
    (l : List α) :
    (groupsOf batch_size l).length = (l.length + batch_size - 1) / batch_size := by
  obtain ⟨m, rfl⟩ := Nat.exists_eq_add_of_le hbs
  rw [Nat.add_comm 1 m]
  rw [groupsOf, groupsOfAux_length m l.length l le_rfl]
  have h : l.length + (m + 1) - 1 = l.length + m := by omega
  rw [h]

/-!  Per-batch embedding lemmas. -/

/-- The success-path output for one text: the provider's vector for its
cleaned form when that is non-empty, the zero vector otherwise. -/
def successOutput (dims : Nat) (embed : String → List ℚ) (t : String) : List ℚ :=
  if stripNonEmpty (cleanText t) then embed (cleanText t) else zeroVector dims

/-- The alignment loop applied to the provider vectors of the non-empty
cleaned texts reproduces, per position, vector-or-zero. -/
theorem alignEmbeddings_filter (dims : Nat) (embed : String → List ℚ) :
    ∀ cleaned : List String,
      alignEmbeddings dims ((cleaned.filter stripNonEmpty).map embed) cleaned
        = cleaned.map fun c => if stripNonEmpty c then embed c else zeroVector dims := by
  intro cleaned
  induction cleaned with
  | nil => simp [alignEmbeddings]
  | cons c cs ih =>
    by_cases hc : stripNonEmpty c
    · simp [alignEmbeddings, List.filter_cons, hc, ih]
    · simp [alignEmbeddings, List.filter_cons, hc, ih]

/-- If a filter keeps nothing, the predicate fails on every element. -/
theorem filter_isEmpty_all_false {α : Type} (p : α → Bool) :
    ∀ l : List α, (l.filter p).isEmpty = true → ∀ x ∈ l, p x = false := by
  intro l
  induction l with
  | nil => intro _ x hx; cases hx
  | cons a t ih =>
    intro h x hx
    rw [List.filter_cons] at h
    by_cases ha : p a
    · simp [ha] at h
    · rcases List.mem_cons.mp hx with rfl | hx2
      · exact eq_false_of_ne_true ha
      · exact ih (by simpa [ha] using h) x hx2

/-- A successful (non-failed) batch produces the per-text success
outputs, in order. -/
theorem processBatch_success (dims : Nat) (embed : String → List ℚ)
    (batch : List String) :
    processBatch dims embed false batch = batch.map (successOutput dims embed) := by
  simp only [processBatch]
  by_cases hE : ((batch.map cleanText).filter stripNonEmpty).isEmpty
  · rw [if_pos hE]
    have hall := filter_isEmpty_all_false stripNonEmpty (batch.map cleanText) hE
    induction batch with
    | nil => simp
    | cons b bs ih =>
      have hb : stripNonEmpty (cleanText b) = false :=
        hall (cleanText b) (List.mem_map_of_mem _ (List.mem_cons_self b bs))
      simp only [List.length_cons, List.replicate_succ, List.map_cons,
        successOutput, hb]
      simp only [Bool.false_eq_true, if_false, List.cons.injEq, true_and]
      exact ih (by simpa [List.filter_cons, hb] using hE)
        fun x hx => hall x (by simpa using Or.inr (by simpa using hx))
  · rw [if_neg hE, if_neg (by simp)]
    rw [alignEmbeddings_filter]
    simp [successOutput, List.map_map, Function.comp]

/-- A batch whose provider call fails (or that cleans to all-empty)
produces one zero vector per text. -/
theorem processBatch_failed (dims : Nat) (embed : String → List ℚ)
    (batch : List String) :
    processBatch dims embed true batch
      = List.replicate batch.length (zeroVector dims) := by
  simp only [processBatch]
  by_cases hE : ((batch.map cleanText).filter stripNonEmpty).isEmpty
  · rw [if_pos hE]
  · rw [if_neg hE]
    simp

/-- Every batch output has one vector per input text, failed or not. -/
theorem processBatch_length (dims : Nat) (embed : String → List ℚ)
    (fail : Bool) (batch : List String) :
    (processBatch dims embed fail batch).length = batch.length := by
  cases fail
  · rw [processBatch_success]; simp
  · rw [processBatch_failed]; simp

/-- The batch loop with no failing batch maps every text to its success
output. -/
theorem genBatchesLoop_no_fail (dims : Nat) (embed : String → List ℚ) :
    ∀ (batches : List (List String)) (k : Nat),
      genBatchesLoop dims embed (fun _ => false) batches k
        = batches.flatten.map (successOutput dims embed) := by
  intro batches
  induction batches with
  | nil => intro k; simp [genBatchesLoop]
  | cons b rest ih =>
    intro k
    simp [genBatchesLoop, processBatch_success, ih (k + 1)]

/-- The batch loop output length is the flattened input length, for any
failure oracle. -/
theorem genBatchesLoop_length (dims : Nat) (embed : String → List ℚ)
    (providerFail : Nat → Bool) :
    ∀ (batches : List (List String)) (k : Nat),
      (genBatchesLoop dims embed providerFail batches k).length
        = batches.flatten.length := by
  intro batches
  induction batches with
  | nil => intro k; simp [genBatchesLoop]
  | cons b rest ih =>
    intro k
    simp [genBatchesLoop, processBatch_length, ih (k + 1)]

/-- C2: for every list of texts and every batch size at least 1, with
every provider call succeeding, `generate_embeddings_batch` returns one
vector per input text, in input order: the zero vector of the configured
dimensionality for each text that is empty after cleaning, the
provider's vector for its cleaned text otherwise. -/
theorem generate_embeddings_batch_aligned (dims batch_size : Nat)
    (embed : String → List ℚ) (texts : List String) (_hbs : 1 ≤ batch_size) :
    generateEmbeddingsBatch dims batch_size embed (fun _ => false) texts
      = texts.map (successOutput dims embed) ∧
    (generateEmbeddingsBatch dims batch_size embed (fun _ => false) texts).length
      = texts.length := by
  have h : generateEmbeddingsBatch dims batch_size embed (fun _ => false) texts
      = texts.map (successOutput dims embed) := by
    rw [generateEmbeddingsBatch, genBatchesLoop_no_fail, groupsOf_flatten]
  exact ⟨h, by rw [h]; simp⟩

/-- Closed instance of `generate_embeddings_batch_aligned` at a concrete
mixed input, discharging the batch-size hypothesis. -/
theorem generate_embeddings_batch_aligned_witness :
    generateEmbeddingsBatch 2 2 (fun _ => [1, 2]) (fun _ => false) ["a", " ", "b"]
      = ["a", " ", "b"].map (successOutput 2 (fun _ => [1, 2])) ∧
    (generateEmbeddingsBatch 2 2 (fun _ => [1, 2]) (fun _ => false)
      ["a", " ", "b"]).length = 3 :=
  generate_embeddings_batch_aligned 2 2 (fun _ => [1, 2]) ["a", " ", "b"] (by decide)

/-- The outputs the failure-isolation claim predicts, batch by batch:
all zero vectors for the failing batch number, the success outputs for
every other batch. -/
def expectedBatchOutputs (dims : Nat) (embed : String → List ℚ) (j : Nat) :
    List (List String) → Nat → List (List ℚ)
  | [], _ => []
  | batch :: rest, k =>
    (if k = j then List.replicate batch.length (zeroVector dims)
     else batch.map (successOutput dims embed)) ++
      expectedBatchOutputs dims embed j rest (k + 1)

/-- The batch loop with exactly batch `j` failing produces the expected
batch outputs. -/
theorem genBatchesLoop_one_fail (dims : Nat) (embed : String → List ℚ) (j : Nat) :
    ∀ (batches : List (List String)) (k : Nat),
      genBatchesLoop dims embed (fun i => i == j) batches k
        = expectedBatchOutputs dims embed j batches k := by
  intro batches
  induction batches with
  | nil => intro k; simp [genBatchesLoop, expectedBatchOutputs]
  | cons b rest ih =>
    intro k
    simp only [genBatchesLoop, expectedBatchOutputs, ih (k + 1)]
    by_cases hk : k = j
    · rw [if_pos hk]
      have : (k == j) = true := beq_iff_eq.mpr hk
      rw [this, processBatch_failed]
    · rw [if_neg hk]
      have : (k == j) = false := beq_eq_false_iff_ne.mpr hk
      rw [this, processBatch_success]

/-- C3: when the provider call fails for exactly batch `j`,
`generate_embeddings_batch` does not abort: every text of batch `j`
receives the zero vector of the configured dimensionality, every other
batch receives its success outputs (the provider's vectors, zero vectors
only for texts empty after cleaning), and the output still has one
vector per input text. -/
theorem generate_embeddings_batch_failure_isolation (dims batch_size : Nat)
    (embed : String → List ℚ) (j : Nat) (texts : List String)
    (_hbs : 1 ≤ batch_size) :
    generateEmbeddingsBatch dims batch_size embed (fun k => k == j) texts
      = expectedBatchOutputs dims embed j (groupsOf batch_size texts) 1 ∧
    (generateEmbeddingsBatch dims batch_size embed (fun k => k == j) texts).length
      = texts.length := by
  constructor
  · rw [generateEmbeddingsBatch, genBatchesLoop_one_fail]
  · rw [generateEmbeddingsBatch, genBatchesLoop_length, groupsOf_flatten]

/-- Closed instance of `generate_embeddings_batch_failure_isolation`
with two batches of which the first fails. -/
theorem generate_embeddings_batch_failure_isolation_witness :
    generateEmbeddingsBatch 2 2 (fun _ => [1, 2]) (fun k => k == 1)
        ["a", "b", "c"]
      = expectedBatchOutputs 2 (fun _ => [1, 2]) 1
          (groupsOf 2 ["a", "b", "c"]) 1 ∧
    (generateEmbeddingsBatch 2 2 (fun _ => [1, 2]) (fun k => k == 1)
        ["a", "b", "c"]).length = 3 :=
  generate_embeddings_batch_failure_isolation 2 2 (fun _ => [1, 2]) 1
    ["a", "b", "c"] (by decide)

/-!  Segmentation failure semantics. -/

/-- Every batch of the semantic loop contributes exactly its own chunks,
whether its LLM call failed or not. -/
theorem semanticBatchLoop_flatten (batchFail : Nat → Bool) :
    ∀ (batches : List (List String)) (k : Nat),
      semanticBatchLoop batchFail batches k = batches.flatten := by
  intro batches
  induction batches with
  | nil => intro k; simp [semanticBatchLoop]
  | cons b rest ih =>
    intro k
    simp [semanticBatchLoop, optimizeChunkBoundaries, ih (k + 1)]

/-- `_semantic_chunk` returns the basic split for every combination of
injected failures (and also with none, since the boundary optimizer
returns its input). -/
theorem semanticChunk_eq_basic (split : String → List String) (outer_error : Bool)
    (batchFail : Nat → Bool) (text : String) :
    semanticChunk split outer_error batchFail text = split text := by
  cases outer_error with
  | true => simp [semanticChunk]
  | false =>
    simp only [semanticChunk, Bool.false_eq_true, if_false]
    by_cases h : (split text).length ≤ 20
    · rw [if_pos h]
    · rw [if_neg h, semanticBatchLoop_flatten, groupsOf_flatten]

/-- Post-processing does not read the `use_semantic_chunking` flag, so
clearing it leaves the output unchanged. -/
theorem postProcessAux_semantic_flag (cfg : ChunkingConfig) (docId : String) :
    ∀ (chunks : List String) (i off : Nat),
      postProcessAux { cfg with use_semantic_chunking := false } docId chunks i off
        = postProcessAux cfg docId chunks i off := by
  intro chunks
  induction chunks with
  | nil => intro i off; rfl
  | cons t rest ih =>
    intro i off
    simp only [postProcessAux, ih]

/-- C4: `chunk_document` is total (it returns a chunk list for every
input and failure oracle), and whatever internal errors are injected -
a failing LLM boundary call on any subset of batches, or a failure of
the semantic-chunking body - its output equals the output of the
plain basic-split configuration with no failures: the degraded result is
the unmodified basic split with no semantic enrichment, never a failed
document. -/
theorem chunk_document_degrades_to_basic (split : String → List String)
    (preprocess : String → String) (cfg : ChunkingConfig) (docId : String)
    (outer_error : Bool) (batchFail : Nat → Bool) (text_content : String) :
    chunkDocument split preprocess cfg docId outer_error batchFail text_content
      = chunkDocument split preprocess { cfg with use_semantic_chunking := false }
          docId false (fun _ => false) text_content := by
  simp only [chunkDocument]
  by_cases h : pyStrip text_content = ""
  · rw [if_pos h, if_pos h]
  · rw [if_neg h, if_neg h]
    cases hc : cfg.use_semantic_chunking with
    | false =>
      simp only [hc, Bool.false_eq_true, if_false]
      exact (postProcessAux_semantic_flag cfg docId _ 0 0).symm
    | true =>
      simp only [hc, if_true, semanticChunk_eq_basic]
      exact (postProcessAux_semantic_flag cfg docId _ 0 0).symm

/-!  Pipeline failure semantics and progress. -/

/-- C5: a `process_document` run whose segmentation stage yields zero
chunks returns (rather than raises) a `ProcessingResult` with
`success = false`, `chunks_created = 0` and the non-empty message
`No chunks created from document`; and every unsuccessful run, whatever
stage failed, reports its error through the result's message instead of
propagating an exception. -/
theorem process_document_zero_chunks (env : PipelineEnv)
    (job_id document_id : String) :
    (∀ text_content, env.extract = Except.ok text_content →
      env.chunker text_content = [] →
      (processDocument env job_id document_id).1.success = false ∧
      (processDocument env job_id document_id).1.chunks_created = 0 ∧
      (processDocument env job_id document_id).1.error_message
        = some "No chunks created from document" ∧
      "No chunks created from document" ≠ "") ∧
    ((processDocument env job_id document_id).1.success = false →
      ∃ m, (processDocument env job_id document_id).1.error_message = some m) := by
  constructor
  · intro text_content hx hc
    simp [processDocument, hx, hc, failureResult]
  · intro hfail
    simp only [processDocument] at hfail ⊢
    cases hx : env.extract with
    | error e =>
      simp only [hx]
      exact ⟨e, rfl⟩
    | ok text_content =>
      simp only [hx] at hfail ⊢
      by_cases hc : (env.chunker text_content).isEmpty
      · rw [if_pos hc] at hfail ⊢
        exact ⟨"No chunks created from document", rfl⟩
      · rw [if_neg hc] at hfail ⊢
        cases he : env.embed_error with
        | some e =>
          simp only [he]
          exact ⟨e, rfl⟩
        | none =>
          simp only [he] at hfail ⊢
          cases hv : env.vector_add with
          | error e =>
            simp only [hv]
            exact ⟨e, rfl⟩
          | ok b =>
            simp only [hv] at hfail ⊢
            cases hg : env.add_episode with
            | error e =>
              simp only [hg]
              exact ⟨e, rfl⟩
            | ok s => simp [hg] at hfail

/-- Closed instance of `process_document_zero_chunks` on a concrete
environment whose chunker returns no chunks. -/
theorem process_document_zero_chunks_witness :
    (processDocument
        { extract := Except.ok "text", chunker := fun _ => [], dims := 3,
          batch_size := 1, embed := fun _ => [], providerFail := fun _ => false,
          vector_add := Except.ok true, add_episode := Except.ok "ep" }
        "job" "doc").1.success = false ∧
    (processDocument
        { extract := Except.ok "text", chunker := fun _ => [], dims := 3,
          batch_size := 1, embed := fun _ => [], providerFail := fun _ => false,
          vector_add := Except.ok true, add_episode := Except.ok "ep" }
        "job" "doc").1.chunks_created = 0 ∧
    (processDocument
        { extract := Except.ok "text", chunker := fun _ => [], dims := 3,
          batch_size := 1, embed := fun _ => [], providerFail := fun _ => false,
          vector_add := Except.ok true, add_episode := Except.ok "ep" }
        "job" "doc").1.error_message = some "No chunks created from document" ∧
    "No chunks created from document" ≠ "" :=
  (process_document_zero_chunks
      { extract := Except.ok "text", chunker := fun _ => [], dims := 3,
        batch_size := 1, embed := fun _ => [], providerFail := fun _ => false,
        vector_add := Except.ok true, add_episode := Except.ok "ep" }
      "job" "doc").1 "text" rfl rfl

/-!  Progress-trace lemmas for C7. -/

/-- Every recorded embedding progress call carries a batch number in
`[k, k + number of remaining batches)` and the fixed total. -/
theorem embedCallsLoop_mem (providerFail : Nat → Bool) (total : Nat) :
    ∀ (batches : List (List String)) (k : Nat) (p : Nat × Nat),
      p ∈ embedCallsLoop providerFail total batches k →
      k ≤ p.1 ∧ p.1 < k + batches.length ∧ p.2 = total := by
  intro batches
  induction batches with
  | nil => intro k p hp; simp [embedCallsLoop] at hp
  | cons batch rest ih =>
    intro k p hp
    simp only [embedCallsLoop] at hp
    split at hp
    · obtain ⟨h1, h2, h3⟩ := ih (k + 1) p hp
      refine ⟨by omega, ?_, h3⟩
      simp only [List.length_cons]
      omega
    · split at hp
      · obtain ⟨h1, h2, h3⟩ := ih (k + 1) p hp
        refine ⟨by omega, ?_, h3⟩
        simp only [List.length_cons]
        omega
      · rcases List.mem_cons.mp hp with rfl | hp2
        · refine ⟨le_rfl, ?_, rfl⟩
          simp only [List.length_cons]
          omega
        · obtain ⟨h1, h2, h3⟩ := ih (k + 1) p hp2
          refine ⟨by omega, ?_, h3⟩
          simp only [List.length_cons]
          omega

/-- The recorded embedding batch numbers strictly increase. -/
theorem embedCallsLoop_pairwise (providerFail : Nat → Bool) (total : Nat) :
    ∀ (batches : List (List String)) (k : Nat),
      (embedCallsLoop providerFail total batches k).Pairwise fun p q => p.1 < q.1 := by
  intro batches
  induction batches with
  | nil => intro k; simp [embedCallsLoop]
  | cons batch rest ih =>
    intro k
    simp only [embedCallsLoop]
    split
    · exact ih (k + 1)
    · split
      · exact ih (k + 1)
      · refine List.Pairwise.cons ?_ (ih (k + 1))
        intro q hq
        have := (embedCallsLoop_mem providerFail total rest (k + 1) q hq).1
        omega

/-- Facts about one run's embedding progress calls: batch numbers are
1-based, bounded by the total, equal totals, strictly increasing. -/
theorem embeddingProgressCalls_facts (batch_size : Nat) (hbs : 1 ≤ batch_size)
    (providerFail : Nat → Bool) (texts : List String) :
    (∀ p ∈ embeddingProgressCalls batch_size providerFail texts,
      1 ≤ p.1 ∧ p.1 ≤ p.2 ∧ p.2 = totalBatches batch_size texts) ∧
    ((embeddingProgressCalls batch_size providerFail texts).Pairwise
      fun p q => p.1 < q.1) := by
  constructor
  · intro p hp
    obtain ⟨h1, h2, h3⟩ := embedCallsLoop_mem providerFail
      (totalBatches batch_size texts) (groupsOf batch_size texts) 1 p hp
    refine ⟨h1, ?_, h3⟩
    have hlen : (groupsOf batch_size texts).length = totalBatches batch_size texts :=
      groupsOf_length batch_size hbs texts
    omega
  · exact embedCallsLoop_pairwise providerFail _ _ 1

/-- The interpolated progress value `45 + (current/total)*15` stays in
[45, 60] for a 1-based call number bounded by the total. -/
theorem progressValue_bounds (p : Nat × Nat) (h1 : 1 ≤ p.1) (h2 : p.1 ≤ p.2) :
    (45 : ℚ) ≤ 45 + (p.1 : ℚ) / (p.2 : ℚ) * 15 ∧
      45 + (p.1 : ℚ) / (p.2 : ℚ) * 15 ≤ 60 := by
  have hp2 : 0 < p.2 := lt_of_lt_of_le h1 h2
  have hp2Q : (0 : ℚ) < (p.2 : ℚ) := by exact_mod_cast hp2
  have hx0 : (0 : ℚ) ≤ (p.1 : ℚ) / (p.2 : ℚ) :=
    div_nonneg (by positivity) hp2Q.le
  have hx1 : (p.1 : ℚ) / (p.2 : ℚ) ≤ 1 :=
    (div_le_one hp2Q).2 (by exact_mod_cast h2)
  constructor <;> nlinarith

/-- The interpolated progress value is monotone in the call number. -/
theorem progressValue_mono (p q : Nat × Nat) (hpq : p.1 < q.1) (hp : p.2 = q.2)
    (hq2 : 0 < q.2) :
    45 + (p.1 : ℚ) / (p.2 : ℚ) * 15 ≤ 45 + (q.1 : ℚ) / (q.2 : ℚ) * 15 := by
  have hq2Q : (0 : ℚ) < (q.2 : ℚ) := by exact_mod_cast hq2
  have hdiv : (p.1 : ℚ) / (q.2 : ℚ) ≤ (q.1 : ℚ) / (q.2 : ℚ) :=
    (div_le_div_iff_of_pos_right hq2Q).2 (by exact_mod_cast hpq.le)
  rw [hp]
  nlinarith

/-- Shape lemma: the checkpoint trace around any block of embedding
values within [45, 60] that is non-decreasing is itself non-decreasing,
bounded by [0, 100] and ends at 100. -/
theorem progress_trace_props (vals : List ℚ)
    (hmem : ∀ v ∈ vals, 45 ≤ v ∧ v ≤ 60)
    (hchain : vals.Chain' (· ≤ ·)) :
    ((([0, 10, 20, 25, 40, 45] : List ℚ) ++
        (vals ++ [60, 65, 70, 75, 90, 95, 100])).Chain' (· ≤ ·)) ∧
    (∀ v ∈ ([0, 10, 20, 25, 40, 45] : List ℚ) ++
        (vals ++ [60, 65, 70, 75, 90, 95, 100]), 0 ≤ v ∧ v ≤ 100) ∧
    ((([0, 10, 20, 25, 40, 45] : List ℚ) ++
        (vals ++ [60, 65, 70, 75, 90, 95, 100])).getLast? = some 100) := by
  refine ⟨?_, ?_, ?_⟩
  · rw [List.chain'_append]
    refine ⟨by norm_num [List.chain'_cons, List.chain'_singleton], ?_, ?_⟩
    · rw [List.chain'_append]
      refine ⟨hchain, by norm_num [List.chain'_cons, List.chain'_singleton], ?_⟩
      intro x hx y hy
      simp only [List.head?_cons, Option.mem_def, Option.some.injEq] at hy
      subst hy
      exact (hmem x (List.mem_of_mem_getLast? hx)).2
    · intro x hx y hy
      have hx45 : x = 45 := by
        have := hx
        simp only [List.getLast?_cons_cons, List.getLast?_singleton,
          Option.mem_def, Option.some.injEq] at this
        exact this.symm
      subst hx45
      rw [List.head?_append] at hy
      cases vals with
      | nil =>
        simp only [List.head?_nil, Option.none_or, List.head?_cons,
          Option.mem_def, Option.some.injEq] at hy
        subst hy
        norm_num
      | cons v vs =>
        simp only [List.head?_cons, Option.or, Option.mem_def, Option.some.injEq] at hy
        subst hy
        exact (hmem v (List.mem_cons_self v vs)).1
  · intro v hv
    rw [List.mem_append] at hv
    rcases hv with hv | hv
    · fin_cases hv <;> norm_num
    · rw [List.mem_append] at hv
      rcases hv with hv | hv
      · have := hmem v hv
        constructor <;> linarith [this.1, this.2]
      · fin_cases hv <;> norm_num
  · have hS : ([60, 65, 70, 75, 90, 95, 100] : List ℚ).getLast? = some 100 := rfl
    rw [List.getLast?_append, List.getLast?_append, hS]
    rfl

/-- C7: in a successful `process_document` run with a progress callback,
the delivered progress values are monotonically non-decreasing, stay
within [0, 100] (the embedding-stage interpolated values included), and
the final invocation reports exactly 100. -/
theorem process_document_progress (env : PipelineEnv)
    (job_id document_id text_content : String) (b : Bool) (ep : String)
    (hbs : 1 ≤ env.batch_size)
    (hx : env.extract = Except.ok text_content)
    (hc : (env.chunker text_content).isEmpty = false)
    (he : env.embed_error = none)
    (hv : env.vector_add = Except.ok b)
    (hg : env.add_episode = Except.ok ep) :
    ((processDocument env job_id document_id).1.success = true) ∧
    ((processDocument env job_id document_id).2.Chain' (· ≤ ·)) ∧
    (∀ v ∈ (processDocument env job_id document_id).2, 0 ≤ v ∧ v ≤ 100) ∧
    ((processDocument env job_id document_id).2.getLast? = some (100 : ℚ)) := by
  have htr : (processDocument env job_id document_id).2
      = ([0, 10, 20, 25, 40, 45] : List ℚ) ++
          (((embeddingProgressCalls env.batch_size env.providerFail
              ((env.chunker text_content).map DocumentChunk.content)).map
            fun p => 45 + (p.1 : ℚ) / (p.2 : ℚ) * 15) ++
            [60, 65, 70, 75, 90, 95, 100]) := by
    simp [processDocument, hx, hc, he, hv, hg]
  have hsuc : (processDocument env job_id document_id).1.success = true := by
    simp [processDocument, hx, hc, he, hv, hg]
  obtain ⟨hmemP, hpairP⟩ := embeddingProgressCalls_facts env.batch_size hbs
    env.providerFail ((env.chunker text_content).map DocumentChunk.content)
  have hmemV : ∀ v ∈ (embeddingProgressCalls env.batch_size env.providerFail
      ((env.chunker text_content).map DocumentChunk.content)).map
        fun p => 45 + (p.1 : ℚ) / (p.2 : ℚ) * 15, 45 ≤ v ∧ v ≤ 60 := by
    intro v hv2
    obtain ⟨p, hp, rfl⟩ := List.mem_map.mp hv2
    exact progressValue_bounds p (hmemP p hp).1 (hmemP p hp).2.1
  have hchainV : ((embeddingProgressCalls env.batch_size env.providerFail
      ((env.chunker text_content).map DocumentChunk.content)).map
        fun p => 45 + (p.1 : ℚ) / (p.2 : ℚ) * 15).Chain' (· ≤ ·) := by
    refine List.Pairwise.chain' ?_
    rw [List.pairwise_map]
    refine hpairP.imp_of_mem ?_
    intro p q hp hq hlt
    have hfp := hmemP p hp
    have hfq := hmemP q hq
    exact progressValue_mono p q hlt (hfp.2.2.trans hfq.2.2.symm)
      (lt_of_lt_of_le hfq.1 hfq.2.1)
  obtain ⟨h1, h2, h3⟩ := progress_trace_props _ hmemV hchainV
  rw [htr]
  exact ⟨hsuc, h1, h2, h3⟩

/-- A concrete stage environment for a fully successful run: one chunk,
one embedding batch, all stores succeeding. -/
def sampleEnv : PipelineEnv :=
  { extract := Except.ok "text"
    chunker := fun _ => [{ document_id := "d", content := "c", chunk_index := 0 }]
    dims := 1
    batch_size := 1
    embed := fun _ => [1]
    providerFail := fun _ => false
    vector_add := Except.ok true
    add_episode := Except.ok "ep" }

/-- Closed instance of `process_document_progress` on `sampleEnv`,
discharging every stage hypothesis. -/
theorem process_document_progress_witness :
    (processDocument sampleEnv "job" "doc").1.success = true ∧
    ((processDocument sampleEnv "job" "doc").2.Chain' (· ≤ ·)) ∧
    (processDocument sampleEnv "job" "doc").2.getLast? = some (100 : ℚ) :=
  ⟨(process_document_progress sampleEnv "job" "doc" "text" true "ep"
      (by decide) rfl rfl rfl rfl rfl).1,
    (process_document_progress sampleEnv "job" "doc" "text" true "ep"
      (by decide) rfl rfl rfl rfl rfl).2.1,
    (process_document_progress sampleEnv "job" "doc" "text" true "ep"
      (by decide) rfl rfl rfl rfl rfl).2.2.2⟩

end HybridRag
